import Mathlib

/-!
Verification of the chunking + retrieval pipeline of the `ai-prof` repository.

The Python sources are embedded shallowly:
* `split_into_chunks`, `already_chunked`, `upsert_chunks`, `main`
  come from `scripts/40_chunk_embed_load.py`;
* `upsert_doc` comes from `scripts/30_ingest_pdfs_epubs.py` /
  `scripts/10_scrape_site.py`;
* `vector_search` and the chat model-fallback loop come from `adyai/app.py`.

External capabilities (the sentence-transformer embedder, `hashlib.sha1`,
`uuid.uuid4`, the filesystem, the Anthropic client) are modelled as explicit
function parameters of the embedding; the database tables are modelled as
lists of rows.
-/

/-! ## Chunker — `scripts/40_chunk_embed_load.py`, `split_into_chunks` -/

/-- Helper for `pySplit`: scan the characters, accumulating the current
word in reverse; a whitespace character ends the current word (if any),
and a trailing word is emitted at the end of the input. -/
def wordsAux (acc : List Char) : List Char → List String
  | [] => if acc.isEmpty then [] else [String.mk acc.reverse]
  | c :: cs =>
    if c.isWhitespace then
      if acc.isEmpty then wordsAux [] cs
      else String.mk acc.reverse :: wordsAux [] cs
    else wordsAux (c :: acc) cs

/-- Model of Python `str.split()` (no argument): split on runs of
whitespace, producing only the non-empty words (leading/trailing/repeated
blanks yield nothing). -/
def pySplit (s : String) : List String := wordsAux [] s.data

/-- Model of Python `sep.join(list)`. -/
def pyJoin (sep : String) : List String → String
  | [] => ""
  | [w] => w
  | w :: ws => w ++ sep ++ pyJoin sep ws

/-- `split_into_chunks` from `scripts/40_chunk_embed_load.py`:
`words = text.split(); step = max(1, target_tokens - overlap);`
then for `i in range(0, len(words), step)` join `words[i:i+target_tokens]`
with single spaces and keep the chunk when its length is positive.
`range(0, n, step)` performs `⌈n / step⌉ = (n + step - 1) / step`
iterations over the start indices `0, step, 2*step, …`. -/
def split_into_chunks (text : String) (target_tokens : Nat := 350)
    (overlap : Nat := 40) : List String :=
  let words := pySplit text
  let approx := target_tokens
  let step := max 1 (approx - overlap)
  (List.range' 0 ((words.length + step - 1) / step) step).filterMap fun i =>
    let chunk := pyJoin " " ((words.drop i).take approx)
    if chunk.length > 0 then some chunk else none

/-- The word window of length `target` starting at position `j * step`. -/
def window (ws : List String) (target step j : Nat) : List String :=
  (ws.drop (j * step)).take target

/-- The reference sliding-window chunker, written from the specification's
words: split on whitespace into words, let `step = max(1, target - overlap)`,
and for each `j` with `j * step <` the number of words emit the window of
words at positions `j * step .. j * step + target - 1`, joined by single
spaces, provided the window is non-empty. -/
def chunkRef (text : String) (target overlap : Nat) : List String :=
  let words := pySplit text
  let step := max 1 (target - overlap)
  ((List.range words.length).filter (fun j => decide (j * step < words.length))).filterMap
    fun j =>
      if window words target step j = [] then none
      else some (pyJoin " " (window words target step j))

theorem string_eq_empty_of_length {s : String} (h : s.length = 0) : s = "" := by
  cases s with
  | mk l =>
      simp [String.length] at h
      simp [h]

theorem wordsAux_ne_nil_mem :
    ∀ (cs : List Char) (acc : List Char) (w : String),
      w ∈ wordsAux acc cs → w ≠ "" := by
  intro cs
  induction cs with
  | nil =>
      intro acc w h
      by_cases he : acc.isEmpty
      · simp [wordsAux, he] at h
      · simp [wordsAux, he] at h
        subst h
        intro hcon
        have : acc.reverse = [] := congrArg String.data hcon
        rw [List.reverse_eq_nil_iff] at this
        subst this
        exact he rfl
  | cons c cs ih =>
      intro acc w h
      by_cases hws : c.isWhitespace
      · by_cases he : acc.isEmpty
        · rw [wordsAux, if_pos hws, if_pos he] at h
          exact ih [] w h
        · rw [wordsAux, if_pos hws, if_neg he] at h
          rcases List.mem_cons.mp h with heq | hmem
          · subst heq
            intro hcon
            have : acc.reverse = [] := congrArg String.data hcon
            rw [List.reverse_eq_nil_iff] at this
            subst this
            exact he rfl
          · exact ih [] w hmem
      · rw [wordsAux, if_neg hws] at h
        exact ih (c :: acc) w h

theorem pySplit_ne_nil_mem {s : String} {w : String} (h : w ∈ pySplit s) :
    w ≠ "" :=
  wordsAux_ne_nil_mem s.data [] w h

theorem pyJoin_cons_length (x : String) (xs : List String) :
    x.length ≤ (pyJoin " " (x :: xs)).length := by
  cases xs with
  | nil => simp [pyJoin]
  | cons y ys =>
      show x.length ≤ (x ++ " " ++ pyJoin " " (y :: ys)).length
      rw [String.length_append, String.length_append]
      have h1 : (" " : String).length = 1 := rfl
      omega

theorem pyJoin_length_pos_iff {w : List String} (hw : ∀ x ∈ w, x ≠ "") :
    (pyJoin " " w).length > 0 ↔ w ≠ [] := by
  cases w with
  | nil => simp [pyJoin]
  | cons x xs =>
      simp only [ne_eq, reduceCtorEq, not_false_iff, iff_true]
      have hx : x ≠ "" := hw x (List.mem_cons_self x xs)
      have hxlen : 0 < x.length := by
        rcases Nat.eq_zero_or_pos x.length with h0 | h0
        · exact absurd (string_eq_empty_of_length h0) hx
        · exact h0
      exact lt_of_lt_of_le hxlen (pyJoin_cons_length x xs)

theorem range'_step_eq_map (step : Nat) :
    ∀ n s, List.range' s n step = (List.range n).map (fun j => s + j * step) := by
  intro n
  induction n with
  | zero => intro s; simp
  | succ m ih =>
      intro s
      rw [List.range'_concat, List.range_succ, ih s, List.map_append]
      simp [Nat.mul_comm]

theorem filterMap_map_comp {α β γ : Type} (l : List α) (f : α → β)
    (g : β → Option γ) :
    (l.map f).filterMap g = l.filterMap (fun x => g (f x)) := by
  induction l with
  | nil => rfl
  | cons a t ih =>
      rw [List.map_cons, List.filterMap_cons, List.filterMap_cons]
      cases g (f a) <;> simp [ih]

theorem range_filter_lt_eq (m : Nat) :
    ∀ len, m ≤ len →
      (List.range len).filter (fun j => decide (j < m)) = List.range m := by
  intro len
  induction len with
  | zero =>
      intro h
      have : m = 0 := Nat.le_zero.mp h
      subst this
      simp
  | succ n ih =>
      intro h
      rcases Nat.lt_or_ge m (n + 1) with hlt | hge
      · have hm : m ≤ n := Nat.lt_succ_iff.mp hlt
        rw [List.range_succ, List.filter_append, ih hm]
        have hn : ¬ n < m := Nat.not_lt.mpr hm
        simp [hn]
      · have hm : m = n + 1 := Nat.le_antisymm h hge
        subst hm
        apply List.filter_eq_self.mpr
        intro a ha
        simpa using List.mem_range.mp ha

theorem ceil_div_le (len step : Nat) (hstep : 0 < step) :
    (len + step - 1) / step ≤ len := by
  rw [Nat.div_le_iff_le_mul_add_pred hstep]
  have : len ≤ step * len := Nat.le_mul_of_pos_left len hstep
  omega

theorem lt_ceil_div_iff (j len step : Nat) (hstep : 0 < step) :
    j < (len + step - 1) / step ↔ j * step < len := by
  have h1 : j < (len + step - 1) / step ↔ (j + 1) * step ≤ len + step - 1 := by
    rw [Nat.lt_iff_add_one_le, Nat.le_div_iff_mul_le hstep]
  rw [h1, Nat.add_mul, Nat.one_mul]
  generalize j * step = a
  omega

/-- The index set used by `chunkRef` is the initial segment
`range ⌈len/step⌉`. -/
theorem chunk_index_set (len step : Nat) (hstep : 0 < step) :
    (List.range len).filter (fun j => decide (j * step < len)) =
      List.range ((len + step - 1) / step) := by
  have h1 : ∀ j, (decide (j * step < len)) =
      (decide (j < (len + step - 1) / step)) := fun j =>
    decide_eq_decide.mpr (lt_ceil_div_iff j len step hstep).symm
  calc (List.range len).filter (fun j => decide (j * step < len))
      = (List.range len).filter (fun j => decide (j < (len + step - 1) / step)) := by
        apply List.filter_congr
        intro j _
        exact h1 j
    _ = List.range ((len + step - 1) / step) :=
        range_filter_lt_eq _ len (ceil_div_le len step hstep)

theorem split_into_chunks_eq_ref (text : String) (target overlap : Nat) :
    split_into_chunks text target overlap = chunkRef text target overlap := by
  have hstep_pos : 0 < max 1 (target - overlap) := le_max_left 1 _
  simp only [split_into_chunks, chunkRef]
  rw [chunk_index_set (pySplit text).length (max 1 (target - overlap)) hstep_pos,
    range'_step_eq_map, filterMap_map_comp]
  apply List.filterMap_congr
  intro j _
  simp only [Nat.zero_add, window]
  have hmem : ∀ x ∈ ((pySplit text).drop (j * max 1 (target - overlap))).take target,
      x ≠ "" := by
    intro x hx
    exact pySplit_ne_nil_mem (List.mem_of_mem_drop (List.mem_of_mem_take hx))
  by_cases hnil : ((pySplit text).drop (j * max 1 (target - overlap))).take target = []
  · simp [hnil, pyJoin]
  · simp [hnil, (pyJoin_length_pos_iff hmem).mpr hnil]

theorem split_into_chunks_empty (t o : Nat) : split_into_chunks "" t o = [] := by
  have h : pySplit "" = [] := rfl
  simp only [split_into_chunks, h, List.length_nil]
  have hstep : 0 < max 1 (t - o) := le_max_left 1 _
  generalize hs : max 1 (t - o) = s at hstep
  rw [Nat.div_eq_of_lt (by omega)]
  rfl

theorem split_into_chunks_ne_empty {text : String} {t o : Nat} {c : String}
    (hc : c ∈ split_into_chunks text t o) : c ≠ "" := by
  simp only [split_into_chunks, List.mem_filterMap] at hc
  obtain ⟨i, _, heq⟩ := hc
  by_cases hlen : (pyJoin " " (((pySplit text).drop i).take t)).length > 0
  · rw [if_pos hlen] at heq
    intro he
    rw [Option.some_inj.mp heq, he] at hlen
    simp at hlen
  · rw [if_neg hlen] at heq
    exact absurd heq (by simp)

theorem window_overlap (ws : List String) (target overlap i : Nat)
    (h : overlap < target) :
    (window ws target (max 1 (target - overlap)) i).drop (target - overlap) =
      (window ws target (max 1 (target - overlap)) (i + 1)).take overlap := by
  have hs : max 1 (target - overlap) = target - overlap :=
    max_eq_right (by omega)
  rw [hs]
  unfold window
  rw [List.drop_take, List.drop_drop, List.take_take]
  have h1 : target - (target - overlap) = overlap := by omega
  have h2 : min overlap target = overlap := min_eq_left (Nat.le_of_lt h)
  have h3 : (i + 1) * (target - overlap) = i * (target - overlap) + (target - overlap) := by
    ring
  rw [h1, h2, h3]

/-- C1: `split_into_chunks` coincides with the reference sliding-window
definition `chunkRef` for every text and parameters; the result on an empty
input is the empty sequence; every emitted chunk is non-empty (so the tail
window is emitted exactly when non-empty); and whenever `overlap < target`
(so the step is the unclamped `target - overlap`), the last `overlap` words
of window `i` are the first `overlap` words of window `i + 1`. -/
theorem C1_chunker_matches_reference :
    (∀ text target overlap,
        split_into_chunks text target overlap = chunkRef text target overlap) ∧
    (∀ target overlap, split_into_chunks "" target overlap = []) ∧
    (∀ text target overlap c, c ∈ split_into_chunks text target overlap → c ≠ "") ∧
    (∀ ws target overlap i, overlap < target →
        (window ws target (max 1 (target - overlap)) i).drop (target - overlap) =
          (window ws target (max 1 (target - overlap)) (i + 1)).take overlap) :=
  ⟨split_into_chunks_eq_ref, split_into_chunks_empty,
   fun _ _ _ _ hc => split_into_chunks_ne_empty hc,
   window_overlap⟩

/-- Witness for C1 at a concrete input: five words, `target = 3`,
`overlap = 1`. -/
theorem C1_chunker_matches_reference_witness :
    (split_into_chunks "a b c d e" 3 1 = chunkRef "a b c d e" 3 1) ∧
    (split_into_chunks "" 3 1 = []) ∧
    ((window ["a", "b", "c", "d", "e"] 3 (max 1 (3 - 1)) 0).drop (3 - 1) =
      (window ["a", "b", "c", "d", "e"] 3 (max 1 (3 - 1)) 1).take 1) :=
  ⟨C1_chunker_matches_reference.1 "a b c d e" 3 1,
   C1_chunker_matches_reference.2.1 3 1,
   C1_chunker_matches_reference.2.2.2 ["a", "b", "c", "d", "e"] 3 1 0 (by decide)⟩

/-! ## C10 — duplicated tail chunk under the default parameters -/

/-- C10: under the default parameters `target = 350`, `overlap = 40`
(`step = 310`), any text whose word count `w` satisfies `310 < w ≤ 350`
is chunked into exactly two chunks: the first contains all `w` words, and
the final chunk consists of the last `w - 310` words — a contiguous
sub-sequence (in fact a suffix) of the preceding chunk's words, so the
tail chunk adds no words not already present in the previous chunk. -/
theorem C10_tail_chunk_duplicated (text : String)
    (h1 : 310 < (pySplit text).length) (h2 : (pySplit text).length ≤ 350) :
    split_into_chunks text 350 40 =
      [pyJoin " " (pySplit text), pyJoin " " ((pySplit text).drop 310)] ∧
    (pySplit text).drop 310 <:+ pySplit text := by
  refine ⟨?_, List.drop_suffix 310 (pySplit text)⟩
  have hmax : max 1 (350 - 40) = 310 := by norm_num
  have hceil : ((pySplit text).length + 310 - 1) / 310 = 2 := by omega
  have hw : ∀ x ∈ pySplit text, x ≠ "" := fun x hx => pySplit_ne_nil_mem hx
  have hne0 : pySplit text ≠ [] := by
    intro h
    rw [h] at h1
    simp at h1
  have hne1 : (pySplit text).drop 310 ≠ [] := by
    rw [ne_eq, List.drop_eq_nil_iff]
    omega
  have htake0 : (pySplit text).take 350 = pySplit text := List.take_of_length_le h2
  have htake1 : ((pySplit text).drop 310).take 350 = (pySplit text).drop 310 :=
    List.take_of_length_le (by rw [List.length_drop]; omega)
  have hpos0 : (pyJoin " " (pySplit text)).length > 0 :=
    (pyJoin_length_pos_iff hw).mpr hne0
  have hpos1 : (pyJoin " " ((pySplit text).drop 310)).length > 0 :=
    (pyJoin_length_pos_iff (fun x hx => hw x (List.mem_of_mem_drop hx))).mpr hne1
  simp only [split_into_chunks, hmax, hceil]
  rw [show List.range' 0 2 310 = [0, 310] from rfl]
  simp only [List.filterMap_cons, List.filterMap_nil, List.drop_zero, htake0,
    htake1, hpos0, hpos1, if_pos]

/-- Concrete text of 320 identical words for the C10 witness. -/
def sampleText : String := pyJoin " " (List.replicate 320 "om")

set_option maxRecDepth 100000 in
/-- Witness for C10: `sampleText` has 320 words, and its second chunk is a
suffix of the word sequence of its first chunk. -/
theorem C10_tail_chunk_duplicated_witness :
    310 < (pySplit sampleText).length ∧ (pySplit sampleText).length ≤ 350 ∧
    (split_into_chunks sampleText 350 40 =
      [pyJoin " " (pySplit sampleText), pyJoin " " ((pySplit sampleText).drop 310)] ∧
    (pySplit sampleText).drop 310 <:+ pySplit sampleText) :=
  ⟨by decide, by decide, C10_tail_chunk_duplicated sampleText (by decide) (by decide)⟩

/-! ## Chunk store and Indexer — `scripts/40_chunk_embed_load.py` -/

/-- A row of the `zen_chunks` table.  The SQL column `section` is called
`sectionLabel` here because `section` is reserved in Lean. -/
structure Chunk where
  id : Nat
  doc_id : Nat
  chunk_index : Nat
  content : String
  sectionLabel : Option String
  token_count : Nat
  embedding : List ℚ
  metadata : String
  deriving DecidableEq, Repr

/-- `already_chunked`: `SELECT 1 FROM zen_chunks WHERE doc_id=%s LIMIT 1`. -/
def already_chunked (st : List Chunk) (d : Nat) : Bool :=
  st.any (fun r => r.doc_id == d)

/-- The `(doc_id, chunk_index)` conflict key of the chunks table. -/
def chunkKeyMatch (r : Chunk) (d idx : Nat) : Bool :=
  r.doc_id == d && r.chunk_index == idx

/-- One `INSERT … ON CONFLICT (doc_id, chunk_index) DO UPDATE SET
content=EXCLUDED.content, embedding=EXCLUDED.embedding` statement:
if a row with the key exists it keeps its identity, token count, section
and metadata and only receives the new content and embedding; otherwise
the new row is inserted. -/
def upsert_row (st : List Chunk) (row : Chunk) : List Chunk :=
  if st.any (fun r => chunkKeyMatch r row.doc_id row.chunk_index) then
    st.map fun r =>
      if chunkKeyMatch r row.doc_id row.chunk_index then
        { r with content := row.content, embedding := row.embedding }
      else r
  else st ++ [row]

/-- The row built by `upsert_chunks` for chunk index `idx`: a fresh uuid
(modelled by the supply `freshId`), the owning document, the chunk text,
`section = NULL`, `token_count = len(content.split())`, the embedding and
empty metadata (the literal two-character JSON object). -/
def mkChunkRow (freshId : Nat → Nat → Nat) (d idx : Nat) (content : String)
    (emb : List ℚ) : Chunk :=
  { id := freshId d idx, doc_id := d, chunk_index := idx, content := content,
    sectionLabel := none, token_count := (pySplit content).length,
    embedding := emb, metadata := "\x7b\x7d" }

/-- `upsert_chunks`: `for idx, (content, emb) in enumerate(zip(chunks,
embeddings))`, execute the conflict-resolving insert. -/
def upsert_chunks (freshId : Nat → Nat → Nat) (st : List Chunk) (d : Nat)
    (chunks : List String) (embeddings : List (List ℚ)) : List Chunk :=
  ((chunks.zip embeddings).enum).foldl
    (fun acc p => upsert_row acc (mkChunkRow freshId d p.1 p.2.1 p.2.2)) st

/-- The Indexer's environment: the document ids returned by `get_doc_ids`,
the text loader `load_text_for_id` (which can raise while reading a file),
the batched embedding capability `embed_texts` (which can raise on an
embedding-call failure), and the uuid supply for new rows. -/
structure IndexEnv where
  docs : List Nat
  load : Nat → Except String String
  embed : List String → Except String (List (List ℚ))
  freshId : Nat → Nat → Nat

/-- The body of `main`'s `for doc_id in doc_ids:` loop for one document.
There is no `try`/`except` in `main`, so a raise from `load` or `embed`
propagates as `.error`. -/
def processDoc (env : IndexEnv) (st : List Chunk) (d : Nat) :
    Except String (List Chunk) :=
  if already_chunked st d then .ok st
  else
    match env.load d with
    | .error e => .error e
    | .ok text =>
      if text.length < 400 then .ok st
      else
        match env.embed (split_into_chunks text 350 40) with
        | .error e => .error e
        | .ok embs =>
            .ok (upsert_chunks env.freshId st d (split_into_chunks text 350 40) embs)

/-- The `for doc_id in doc_ids:` loop of `main`, processing a given list of
document ids in order; an uncaught exception aborts the remaining
iterations. -/
def runDocs (env : IndexEnv) : List Nat → List Chunk → Except String (List Chunk)
  | [], st => .ok st
  | d :: ds, st =>
    match processDoc env st d with
    | .error e => .error e
    | .ok st' => runDocs env ds st'

/-- `main` from `scripts/40_chunk_embed_load.py`: run the loop over
`get_doc_ids`. -/
def mainRun (env : IndexEnv) (st : List Chunk) : Except String (List Chunk) :=
  runDocs env env.docs st

theorem upsert_chunks_eq_foldl (freshId : Nat → Nat → Nat) (st : List Chunk)
    (d : Nat) (cs : List String) (es : List (List ℚ)) :
    upsert_chunks freshId st d cs es =
      ((cs.zip es).enum.map
        (fun p => mkChunkRow freshId d p.1 p.2.1 p.2.2)).foldl upsert_row st := by
  unfold upsert_chunks
  rw [List.foldl_map]

theorem upsert_chunks_zip_nil (freshId : Nat → Nat → Nat) (st : List Chunk)
    (d : Nat) (cs : List String) (es : List (List ℚ))
    (h : cs.zip es = []) : upsert_chunks freshId st d cs es = st := by
  unfold upsert_chunks
  rw [h]
  rfl

theorem already_chunked_upsert_row {st : List Chunk} {d : Nat} (row : Chunk)
    (h : already_chunked st d = true) :
    already_chunked (upsert_row st row) d = true := by
  unfold already_chunked at h ⊢
  rw [List.any_eq_true] at h ⊢
  obtain ⟨r, hr, hd⟩ := h
  unfold upsert_row
  by_cases hex : st.any (fun r => chunkKeyMatch r row.doc_id row.chunk_index)
  · rw [if_pos hex]
    refine ⟨_, List.mem_map_of_mem _ hr, ?_⟩
    by_cases hk : chunkKeyMatch r row.doc_id row.chunk_index
    · simpa [hk] using hd
    · simpa [hk] using hd
  · rw [if_neg hex]
    exact ⟨r, List.mem_append_left _ hr, hd⟩

theorem already_chunked_upsert_row_self (st : List Chunk) (row : Chunk) :
    already_chunked (upsert_row st row) row.doc_id = true := by
  unfold already_chunked upsert_row
  by_cases hex : st.any (fun r => chunkKeyMatch r row.doc_id row.chunk_index)
  · rw [if_pos hex, List.any_eq_true]
    rw [List.any_eq_true] at hex
    obtain ⟨r, hr, hk⟩ := hex
    refine ⟨_, List.mem_map_of_mem _ hr, ?_⟩
    have hdoc : r.doc_id = row.doc_id := by
      have hk2 := hk
      simp [chunkKeyMatch] at hk2
      exact hk2.1
    simp [hk, hdoc]
  · rw [if_neg hex, List.any_eq_true]
    exact ⟨row, List.mem_append_right _ (List.mem_singleton.mpr rfl), by simp⟩

theorem already_chunked_foldl (rows : List Chunk) :
    ∀ (st : List Chunk) (d : Nat), already_chunked st d = true →
      already_chunked (rows.foldl upsert_row st) d = true := by
  induction rows with
  | nil => intro st d h; exact h
  | cons r rs ih =>
      intro st d h
      exact ih _ d (already_chunked_upsert_row r h)

theorem already_chunked_upsert_chunks (freshId : Nat → Nat → Nat)
    (st : List Chunk) (d d0 : Nat) (cs : List String) (es : List (List ℚ))
    (h : already_chunked st d0 = true) :
    already_chunked (upsert_chunks freshId st d cs es) d0 = true := by
  rw [upsert_chunks_eq_foldl]
  exact already_chunked_foldl _ st d0 h

theorem already_chunked_upsert_chunks_self (freshId : Nat → Nat → Nat)
    (st : List Chunk) (d : Nat) (cs : List String) (es : List (List ℚ))
    (h : cs.zip es ≠ []) :
    already_chunked (upsert_chunks freshId st d cs es) d = true := by
  rw [upsert_chunks_eq_foldl]
  cases hz : cs.zip es with
  | nil => exact absurd hz h
  | cons p ps =>
      rw [show (p :: ps).enum = (0, p) :: ps.enumFrom 1 from rfl,
        List.map_cons, List.foldl_cons]
      exact already_chunked_foldl _ _ d
        (already_chunked_upsert_row_self st (mkChunkRow freshId d 0 p.1 p.2))

/-- A document counts as settled for the Indexer in state `st` when the
second pass over it is a no-op: it already owns a chunk, or its text is
missing/short, or its chunking produces nothing to upsert. -/
def docDone (env : IndexEnv) (st : List Chunk) (d : Nat) : Prop :=
  already_chunked st d = true
  ∨ (∃ t, env.load d = .ok t ∧ t.length < 400)
  ∨ (∃ t es, env.load d = .ok t ∧ ¬ t.length < 400 ∧
      env.embed (split_into_chunks t 350 40) = .ok es ∧
      (split_into_chunks t 350 40).zip es = [])

theorem processDoc_skip {env : IndexEnv} {st : List Chunk} {d : Nat}
    (hc : already_chunked st d = true) : processDoc env st d = .ok st := by
  unfold processDoc
  rw [if_pos hc]

theorem processDoc_err_load (env : IndexEnv) (st : List Chunk) (d : Nat)
    (e : String) (hc : ¬ already_chunked st d = true)
    (hl : env.load d = .error e) : processDoc env st d = .error e := by
  unfold processDoc
  rw [if_neg hc, hl]

theorem processDoc_ok_of_load_ok (env : IndexEnv) (st : List Chunk) (d : Nat)
    (t : String) (hc : ¬ already_chunked st d = true)
    (hl : env.load d = .ok t) :
    processDoc env st d =
      if t.length < 400 then .ok st
      else
        match env.embed (split_into_chunks t 350 40) with
        | .error e => .error e
        | .ok embs =>
            .ok (upsert_chunks env.freshId st d (split_into_chunks t 350 40) embs) := by
  unfold processDoc
  rw [if_neg hc, hl]

theorem processDoc_ok_short (env : IndexEnv) (st : List Chunk) (d : Nat)
    (t : String) (hc : ¬ already_chunked st d = true)
    (hl : env.load d = .ok t) (hs : t.length < 400) :
    processDoc env st d = .ok st := by
  rw [processDoc_ok_of_load_ok env st d t hc hl, if_pos hs]

theorem processDoc_err_embed (env : IndexEnv) (st : List Chunk) (d : Nat)
    (t : String) (e : String) (hc : ¬ already_chunked st d = true)
    (hl : env.load d = .ok t) (hs : ¬ t.length < 400)
    (he : env.embed (split_into_chunks t 350 40) = .error e) :
    processDoc env st d = .error e := by
  rw [processDoc_ok_of_load_ok env st d t hc hl, if_neg hs, he]

theorem processDoc_ok_of_embed_ok (env : IndexEnv) (st : List Chunk) (d : Nat)
    (t : String) (es : List (List ℚ)) (hc : ¬ already_chunked st d = true)
    (hl : env.load d = .ok t) (hs : ¬ t.length < 400)
    (he : env.embed (split_into_chunks t 350 40) = .ok es) :
    processDoc env st d =
      .ok (upsert_chunks env.freshId st d (split_into_chunks t 350 40) es) := by
  rw [processDoc_ok_of_load_ok env st d t hc hl, if_neg hs, he]

theorem docDone_processDoc {env : IndexEnv} {st : List Chunk} {d : Nat}
    (h : docDone env st d) : processDoc env st d = .ok st := by
  rcases h with h | ⟨t, hl, hs⟩ | ⟨t, es, hl, hs, he, hz⟩
  · exact processDoc_skip h
  · by_cases hc : already_chunked st d
    · exact processDoc_skip hc
    · exact processDoc_ok_short env st d t hc hl hs
  · by_cases hc : already_chunked st d
    · exact processDoc_skip hc
    · rw [processDoc_ok_of_embed_ok env st d t es hc hl hs he,
        upsert_chunks_zip_nil env.freshId st d _ es hz]

theorem processDoc_done {env : IndexEnv} {st st' : List Chunk} {d : Nat}
    (h : processDoc env st d = .ok st') : docDone env st' d := by
  by_cases hc : already_chunked st d
  · rw [processDoc_skip hc] at h
    cases h
    exact Or.inl hc
  · cases hl : env.load d with
    | error e => rw [processDoc_err_load env st d e hc hl] at h; cases h
    | ok t =>
        by_cases hs : t.length < 400
        · rw [processDoc_ok_short env st d t hc hl hs] at h
          cases h
          exact Or.inr (Or.inl ⟨t, hl, hs⟩)
        · cases he : env.embed (split_into_chunks t 350 40) with
          | error e =>
              rw [processDoc_err_embed env st d t e hc hl hs he] at h
              cases h
          | ok es =>
              rw [processDoc_ok_of_embed_ok env st d t es hc hl hs he] at h
              cases h
              by_cases hz : (split_into_chunks t 350 40).zip es = []
              · rw [upsert_chunks_zip_nil env.freshId st d _ es hz]
                exact Or.inr (Or.inr ⟨t, es, hl, hs, he, hz⟩)
              · exact Or.inl
                  (already_chunked_upsert_chunks_self env.freshId st d _ es hz)

theorem processDoc_preserves_chunked {env : IndexEnv} {st st' : List Chunk}
    {d' : Nat} (hp : processDoc env st d' = .ok st') (d : Nat)
    (h : already_chunked st d = true) : already_chunked st' d = true := by
  by_cases hc : already_chunked st d'
  · rw [processDoc_skip hc] at hp
    cases hp
    exact h
  · cases hl : env.load d' with
    | error e => rw [processDoc_err_load env st d' e hc hl] at hp; cases hp
    | ok t =>
        by_cases hs : t.length < 400
        · rw [processDoc_ok_short env st d' t hc hl hs] at hp
          cases hp
          exact h
        · cases he : env.embed (split_into_chunks t 350 40) with
          | error e =>
              rw [processDoc_err_embed env st d' t e hc hl hs he] at hp
              cases hp
          | ok es =>
              rw [processDoc_ok_of_embed_ok env st d' t es hc hl hs he] at hp
              cases hp
              exact already_chunked_upsert_chunks env.freshId st d' d _ es h

theorem docDone_mono {env : IndexEnv} {st st' : List Chunk} {d d' : Nat}
    (h : docDone env st d) (hp : processDoc env st d' = .ok st') :
    docDone env st' d := by
  rcases h with h | h | h
  · exact Or.inl (processDoc_preserves_chunked hp d h)
  · exact Or.inr (Or.inl h)
  · exact Or.inr (Or.inr h)

theorem runDocs_preserves_done {env : IndexEnv} :
    ∀ (ds : List Nat) (st s1 : List Chunk) (d : Nat), docDone env st d →
      runDocs env ds st = .ok s1 → docDone env s1 d := by
  intro ds
  induction ds with
  | nil =>
      intro st s1 d h hr
      cases hr
      exact h
  | cons d0 ds ih =>
      intro st s1 d h hr
      unfold runDocs at hr
      cases hp : processDoc env st d0 with
      | error e => rw [hp] at hr; cases hr
      | ok st1 =>
          rw [hp] at hr
          exact ih st1 s1 d (docDone_mono h hp) hr

theorem runDocs_all_done {env : IndexEnv} :
    ∀ (ds : List Nat) (st s1 : List Chunk), runDocs env ds st = .ok s1 →
      ∀ d ∈ ds, docDone env s1 d := by
  intro ds
  induction ds with
  | nil =>
      intro st s1 _ d hd
      simp at hd
  | cons d0 ds ih =>
      intro st s1 hr d hd
      unfold runDocs at hr
      cases hp : processDoc env st d0 with
      | error e => rw [hp] at hr; cases hr
      | ok st1 =>
          rw [hp] at hr
          rcases List.mem_cons.mp hd with heq | hmem
          · subst heq
            exact runDocs_preserves_done ds st1 s1 d (processDoc_done hp) hr
          · exact ih st1 s1 hr d hmem

theorem runDocs_id_of_done {env : IndexEnv} :
    ∀ (ds : List Nat) (st : List Chunk), (∀ d ∈ ds, docDone env st d) →
      runDocs env ds st = .ok st := by
  intro ds
  induction ds with
  | nil => intro st _; rfl
  | cons d0 ds ih =>
      intro st h
      unfold runDocs
      rw [docDone_processDoc (h d0 (List.mem_cons_self d0 ds))]
      exact ih st (fun d hd => h d (List.mem_cons_of_mem d0 hd))

instance {ε α : Type} [DecidableEq ε] [DecidableEq α] :
    DecidableEq (Except ε α) := fun a b =>
  match a, b with
  | .error e1, .error e2 =>
      if h : e1 = e2 then isTrue (h ▸ rfl)
      else isFalse fun hc => h (Except.error.inj hc)
  | .error _, .ok _ => isFalse fun hc => Except.noConfusion hc
  | .ok _, .error _ => isFalse fun hc => Except.noConfusion hc
  | .ok a1, .ok a2 =>
      if h : a1 = a2 then isTrue (h ▸ rfl)
      else isFalse fun hc => h (Except.ok.inj hc)

/-- C7: if a full Indexer run from state `st` succeeds with final chunk
store `s1`, running the Indexer again over the same (unchanged) document
set and environment leaves the store identical (`.ok s1`): no duplicate
and no changed chunk rows.  Moreover the idempotence gate skips every
document that already owns at least one chunk. -/
theorem C7_indexer_idempotent (env : IndexEnv) (st s1 : List Chunk)
    (h : mainRun env st = .ok s1) :
    mainRun env s1 = .ok s1 ∧
    (∀ d, already_chunked s1 d = true → processDoc env s1 d = .ok s1) :=
  ⟨runDocs_id_of_done env.docs s1
      (fun d hd => runDocs_all_done env.docs st s1 h d hd),
   fun _ hd => processDoc_skip hd⟩

/-- Environment for the C7 witness: one document whose text is 400
characters long, embedded to the one-dimensional vector `[1]`. -/
def idxEnvA : IndexEnv :=
  { docs := [5]
    load := fun _ => .ok (String.mk (List.replicate 400 'a'))
    embed := fun ts => .ok (ts.map fun _ => [(1 : ℚ)])
    freshId := fun _ _ => 7 }

/-- The chunk store produced by one Indexer run of `idxEnvA` from the
empty store. -/
def idxStateA : List Chunk :=
  [{ id := 7, doc_id := 5, chunk_index := 0,
     content := String.mk (List.replicate 400 'a'), sectionLabel := none,
     token_count := 1, embedding := [(1 : ℚ)], metadata := "\x7b\x7d" }]

set_option maxRecDepth 40000 in
/-- Witness for C7 at a concrete environment: the first run produces one
chunk row, and the second run reproduces the store unchanged. -/
theorem C7_indexer_idempotent_witness :
    mainRun idxEnvA [] = .ok idxStateA ∧
    (mainRun idxEnvA idxStateA = .ok idxStateA ∧
      (∀ d, already_chunked idxStateA d = true →
        processDoc idxEnvA idxStateA d = .ok idxStateA)) :=
  ⟨by decide, C7_indexer_idempotent idxEnvA [] idxStateA (by decide)⟩

theorem runDocs_cons_err {env : IndexEnv} {st : List Chunk} {d : Nat}
    {e : String} {ds : List Nat} (hp : processDoc env st d = .error e) :
    runDocs env (d :: ds) st = .error e := by
  unfold runDocs
  rw [hp]

theorem runDocs_cons_ok {env : IndexEnv} {st st' : List Chunk} {d : Nat}
    {ds : List Nat} (hp : processDoc env st d = .ok st') :
    runDocs env (d :: ds) st = runDocs env ds st' := by
  simp only [runDocs, hp]

theorem runDocs_append (env : IndexEnv) (l1 l2 : List Nat) :
    ∀ st, runDocs env (l1 ++ l2) st =
      match runDocs env l1 st with
      | .ok s => runDocs env l2 s
      | .error e => .error e := by
  induction l1 with
  | nil => intro st; rfl
  | cons d ds ih =>
      intro st
      cases hp : processDoc env st d with
      | error e =>
          have hL : runDocs env ((d :: ds) ++ l2) st = .error e :=
            runDocs_cons_err hp
          have hR : runDocs env (d :: ds) st = .error e := runDocs_cons_err hp
          rw [hL, hR]
      | ok st1 =>
          have hL : runDocs env ((d :: ds) ++ l2) st = runDocs env (ds ++ l2) st1 :=
            runDocs_cons_ok hp
          have hR : runDocs env (d :: ds) st = runDocs env ds st1 :=
            runDocs_cons_ok hp
          rw [hL, hR]
          exact ih st1

/-- C2 (as holding in the code, after correction): `main` has no
`try`/`except` around the per-document work, so if the documents in `pre`
process without raising and document `d` then raises (unreadable text
file or embedding-call failure), the whole run aborts with that error and
the documents in `post` are never processed. -/
theorem C2_failure_aborts_run (env : IndexEnv) (pre : List Nat) (d : Nat)
    (post : List Nat) (st s1 : List Chunk) (e : String)
    (hpre : runDocs env pre st = .ok s1)
    (hfail : processDoc env s1 d = .error e) :
    runDocs env (pre ++ d :: post) st = .error e := by
  rw [runDocs_append, hpre]
  unfold runDocs
  rw [hfail]

/-- Environment for the C2 counterexample: document 1's text file raises
on read, document 2 is perfectly processable. -/
def idxEnvFail : IndexEnv :=
  { docs := [1, 2]
    load := fun d => if d == 1 then .error "unreadable"
             else .ok (String.mk (List.replicate 400 'b'))
    embed := fun ts => .ok (ts.map fun _ => [(1 : ℚ)])
    freshId := fun _ _ => 9 }

set_option maxRecDepth 40000 in
/-- Counterexample to C2 as stated: with `idxEnvFail`, the failure on
document 1 is not caught — the whole run aborts with the error and
document 2 is never indexed — although document 2 on its own would be
processed successfully. -/
theorem C2_counterexample :
    mainRun idxEnvFail [] = .error "unreadable" ∧
    runDocs idxEnvFail [2] [] =
      .ok [{ id := 9, doc_id := 2, chunk_index := 0,
             content := String.mk (List.replicate 400 'b'),
             sectionLabel := none, token_count := 1,
             embedding := [(1 : ℚ)], metadata := "\x7b\x7d" }] :=
  ⟨by decide, by decide⟩

set_option maxRecDepth 40000 in
/-- Witness for (corrected) C2 at a concrete environment. -/
theorem C2_failure_aborts_run_witness :
    runDocs idxEnvFail [] [] = .ok [] ∧
    processDoc idxEnvFail [] 1 = .error "unreadable" ∧
    runDocs idxEnvFail ([] ++ 1 :: [2]) [] = .error "unreadable" :=
  ⟨rfl, by decide,
   C2_failure_aborts_run idxEnvFail [] 1 [2] [] [] "unreadable" rfl (by decide)⟩

/-- C8: when `upsert_chunks` writes a chunk at a `(document, index)` key
for which a row already exists, `upsert_row` takes the conflict branch:
the store keeps the same rows in the same positions; the conflicting row
keeps its identity, token count, section and metadata and only its content
and embedding are overwritten with the new values; every row at a
different key is entirely unchanged. -/
theorem C8_upsert_conflict_frame (st : List Chunk) (row : Chunk)
    (hex : ∃ r ∈ st, chunkKeyMatch r row.doc_id row.chunk_index = true) :
    (upsert_row st row).length = st.length ∧
    ∀ i (hi : i < st.length) (hi2 : i < (upsert_row st row).length),
      (chunkKeyMatch st[i] row.doc_id row.chunk_index = true →
        (upsert_row st row)[i].id = st[i].id ∧
        (upsert_row st row)[i].doc_id = st[i].doc_id ∧
        (upsert_row st row)[i].chunk_index = st[i].chunk_index ∧
        (upsert_row st row)[i].token_count = st[i].token_count ∧
        (upsert_row st row)[i].sectionLabel = st[i].sectionLabel ∧
        (upsert_row st row)[i].metadata = st[i].metadata ∧
        (upsert_row st row)[i].content = row.content ∧
        (upsert_row st row)[i].embedding = row.embedding) ∧
      (chunkKeyMatch st[i] row.doc_id row.chunk_index = false →
        (upsert_row st row)[i] = st[i]) := by
  have hany : st.any (fun r => chunkKeyMatch r row.doc_id row.chunk_index) = true := by
    rw [List.any_eq_true]
    obtain ⟨r, hr, hk⟩ := hex
    exact ⟨r, hr, hk⟩
  have hup : upsert_row st row =
      st.map fun r =>
        if chunkKeyMatch r row.doc_id row.chunk_index then
          { r with content := row.content, embedding := row.embedding }
        else r := by
    unfold upsert_row
    rw [if_pos hany]
  constructor
  · rw [hup, List.length_map]
  · intro i hi hi2
    constructor
    · intro hk
      simp [hup, List.getElem_map, hk]
    · intro hk
      simp [hup, List.getElem_map, hk]

/-- Concrete chunk store for the C8 witness: document 10 owns rows at
indices 0 and 1. -/
def cstB : List Chunk :=
  [{ id := 1, doc_id := 10, chunk_index := 0, content := "old0",
     sectionLabel := none, token_count := 1, embedding := [0],
     metadata := "\x7b\x7d" },
   { id := 2, doc_id := 10, chunk_index := 1, content := "old1",
     sectionLabel := some "s", token_count := 3, embedding := [1],
     metadata := "m" }]

/-- Conflicting row for the C8 witness, keyed `(10, 0)`. -/
def crowB : Chunk :=
  { id := 99, doc_id := 10, chunk_index := 0, content := "new",
    sectionLabel := none, token_count := 5, embedding := [2],
    metadata := "\x7b\x7d" }

/-- Witness for C8 at a concrete store and row. -/
theorem C8_upsert_conflict_frame_witness :
    (∃ r ∈ cstB, chunkKeyMatch r crowB.doc_id crowB.chunk_index = true) ∧
    ((upsert_row cstB crowB).length = cstB.length ∧
      ∀ i (hi : i < cstB.length) (hi2 : i < (upsert_row cstB crowB).length),
        (chunkKeyMatch cstB[i] crowB.doc_id crowB.chunk_index = true →
          (upsert_row cstB crowB)[i].id = cstB[i].id ∧
          (upsert_row cstB crowB)[i].doc_id = cstB[i].doc_id ∧
          (upsert_row cstB crowB)[i].chunk_index = cstB[i].chunk_index ∧
          (upsert_row cstB crowB)[i].token_count = cstB[i].token_count ∧
          (upsert_row cstB crowB)[i].sectionLabel = cstB[i].sectionLabel ∧
          (upsert_row cstB crowB)[i].metadata = cstB[i].metadata ∧
          (upsert_row cstB crowB)[i].content = crowB.content ∧
          (upsert_row cstB crowB)[i].embedding = crowB.embedding) ∧
        (chunkKeyMatch cstB[i] crowB.doc_id crowB.chunk_index = false →
          (upsert_row cstB crowB)[i] = cstB[i])) :=
  ⟨by decide, C8_upsert_conflict_frame cstB crowB (by decide)⟩

/-! ## Document store — `upsert_doc` in `scripts/30_ingest_pdfs_epubs.py`
and `scripts/10_scrape_site.py` -/

/-- A row of the `zen_docs` table. -/
structure Doc where
  id : Nat
  source_type : String
  title : String
  author : String
  source_path : Option String
  source_url : Option String
  published_at : Option Nat
  hash : String
  deriving DecidableEq, Repr

/-- `upsert_doc` from `scripts/30_ingest_pdfs_epubs.py`:
`h = sha1(content)`, `SELECT id FROM zen_docs WHERE hash=%s`; if a row is
found its id is returned and nothing is written, otherwise a fresh row is
inserted.  The external digest `hashlib.sha1` is the parameter `sha1`
(byte-identical content gives the identical digest by congruence), and
`uuid.uuid4` is the parameter `freshId`. -/
def upsert_doc_books (sha1 : String → String) (freshId : Nat)
    (store : List Doc) (title source_path content source_type : String) :
    List Doc × Nat :=
  let h := sha1 content
  match store.find? (fun r => r.hash == h) with
  | some row => (store, row.id)
  | none =>
      (store ++ [{ id := freshId, source_type := source_type, title := title,
                   author := "Adyashanti", source_path := some source_path,
                   source_url := none, published_at := none, hash := h }],
       freshId)

/-- `upsert_doc` from `scripts/10_scrape_site.py`: identical hash-keyed
lookup, inserting a `'web'` row with a source url and publication date. -/
def upsert_doc_web (sha1 : String → String) (freshId : Nat)
    (store : List Doc) (source_url title content : String)
    (published : Option Nat) : List Doc × Nat :=
  let h := sha1 content
  match store.find? (fun r => r.hash == h) with
  | some row => (store, row.id)
  | none =>
      (store ++ [{ id := freshId, source_type := "web", title := title,
                   author := "Adyashanti", source_path := none,
                   source_url := some source_url, published_at := published,
                   hash := h }],
       freshId)

/-- One ingest call of either script, with its external inputs. -/
inductive IngestOp where
  | books (freshId : Nat) (title source_path content source_type : String)
  | web (freshId : Nat) (source_url title content : String)
      (published : Option Nat)

def applyIngest (sha1 : String → String) (store : List Doc) :
    IngestOp → List Doc
  | .books fid t p c ty => (upsert_doc_books sha1 fid store t p c ty).1
  | .web fid u t c pub => (upsert_doc_web sha1 fid store u t c pub).1

def applyIngests (sha1 : String → String) (ops : List IngestOp)
    (store : List Doc) : List Doc :=
  ops.foldl (applyIngest sha1) store

/-- The content-hash uniqueness invariant of the `zen_docs` table. -/
def hashUnique (store : List Doc) : Prop :=
  store.Pairwise (fun a b => a.hash ≠ b.hash)

instance (store : List Doc) : Decidable (hashUnique store) :=
  store.instDecidablePairwise

theorem upsert_doc_books_dedup (sha1 : String → String) (fid : Nat)
    (store : List Doc) (t p c ty : String)
    (h : ∃ d ∈ store, d.hash = sha1 c) :
    ∃ d ∈ store, d.hash = sha1 c ∧
      upsert_doc_books sha1 fid store t p c ty = (store, d.id) := by
  cases hf : store.find? (fun r => r.hash == sha1 c) with
  | none =>
      exfalso
      obtain ⟨d, hd, hh⟩ := h
      have := List.find?_eq_none.mp hf d hd
      simp [hh] at this
  | some row =>
      refine ⟨row, List.mem_of_find?_eq_some hf, ?_, ?_⟩
      · have := List.find?_some hf
        simpa using this
      · simp only [upsert_doc_books, hf]

theorem upsert_doc_web_dedup (sha1 : String → String) (fid : Nat)
    (store : List Doc) (u t c : String) (pub : Option Nat)
    (h : ∃ d ∈ store, d.hash = sha1 c) :
    ∃ d ∈ store, d.hash = sha1 c ∧
      upsert_doc_web sha1 fid store u t c pub = (store, d.id) := by
  cases hf : store.find? (fun r => r.hash == sha1 c) with
  | none =>
      exfalso
      obtain ⟨d, hd, hh⟩ := h
      have := List.find?_eq_none.mp hf d hd
      simp [hh] at this
  | some row =>
      refine ⟨row, List.mem_of_find?_eq_some hf, ?_, ?_⟩
      · have := List.find?_some hf
        simpa using this
      · simp only [upsert_doc_web, hf]

theorem hashUnique_append_fresh {store : List Doc} (row : Doc)
    (hu : hashUnique store)
    (hnew : ∀ d ∈ store, d.hash ≠ row.hash) :
    hashUnique (store ++ [row]) := by
  unfold hashUnique
  rw [List.pairwise_append]
  refine ⟨hu, List.pairwise_singleton _ _, ?_⟩
  intro a ha b hb
  rw [List.mem_singleton.mp hb]
  exact hnew a ha

theorem applyIngest_hashUnique (sha1 : String → String) (store : List Doc)
    (op : IngestOp) (hu : hashUnique store) :
    hashUnique (applyIngest sha1 store op) := by
  cases op with
  | books fid t p c ty =>
      show hashUnique (upsert_doc_books sha1 fid store t p c ty).1
      cases hf : store.find? (fun r => r.hash == sha1 c) with
      | some row =>
          simp only [upsert_doc_books, hf]
          exact hu
      | none =>
          simp only [upsert_doc_books, hf]
          exact hashUnique_append_fresh _ hu (fun d hd => by
            have := List.find?_eq_none.mp hf d hd
            simpa using this)
  | web fid u t c pub =>
      show hashUnique (upsert_doc_web sha1 fid store u t c pub).1
      cases hf : store.find? (fun r => r.hash == sha1 c) with
      | some row =>
          simp only [upsert_doc_web, hf]
          exact hu
      | none =>
          simp only [upsert_doc_web, hf]
          exact hashUnique_append_fresh _ hu (fun d hd => by
            have := List.find?_eq_none.mp hf d hd
            simpa using this)

theorem applyIngests_hashUnique (sha1 : String → String) (ops : List IngestOp) :
    ∀ store, hashUnique store → hashUnique (applyIngests sha1 ops store) := by
  induction ops with
  | nil => intro store hu; exact hu
  | cons op rest ih =>
      intro store hu
      exact ih _ (applyIngest_hashUnique sha1 store op hu)

/-- C6: ingesting content whose digest already appears in the store (in
particular byte-identical extracted text, whatever its title or source
path) writes no new document row and resolves to the existing document's
id, for both the book and the web ingest scripts; and any sequence of
ingests preserves the at-most-one-row-per-content-hash invariant. -/
theorem C6_dedup_by_content_hash (sha1 : String → String) :
    (∀ (store : List Doc) (fid : Nat) (t p c ty : String),
       (∃ d ∈ store, d.hash = sha1 c) →
       ∃ d ∈ store, d.hash = sha1 c ∧
         upsert_doc_books sha1 fid store t p c ty = (store, d.id)) ∧
    (∀ (store : List Doc) (fid : Nat) (u t c : String) (pub : Option Nat),
       (∃ d ∈ store, d.hash = sha1 c) →
       ∃ d ∈ store, d.hash = sha1 c ∧
         upsert_doc_web sha1 fid store u t c pub = (store, d.id)) ∧
    (∀ (ops : List IngestOp) (store : List Doc), hashUnique store →
       hashUnique (applyIngests sha1 ops store)) :=
  ⟨fun store fid t p c ty h => upsert_doc_books_dedup sha1 fid store t p c ty h,
   fun store fid u t c pub h => upsert_doc_web_dedup sha1 fid store u t c pub h,
   fun ops store hu => applyIngests_hashUnique sha1 ops store hu⟩

/-- A one-document store for the C6 witness (content digest modelled by
the identity function at this concrete input). -/
def docStoreC : List Doc :=
  [{ id := 3, source_type := "pdf", title := "T0", author := "Adyashanti",
     source_path := some "p0", source_url := none, published_at := none,
     hash := "x" }]

/-- Witness for C6: re-ingesting content hashing to `"x"` under a new
title and path returns the stored id 3 and leaves the store unchanged,
and a further ingest sequence keeps hashes unique. -/
theorem C6_dedup_by_content_hash_witness :
    (∃ d ∈ docStoreC, d.hash = (fun s => s) "x") ∧
    (∃ d ∈ docStoreC, d.hash = (fun s => s) "x" ∧
      upsert_doc_books (fun s => s) 42 docStoreC "T1" "p1" "x" "pdf" =
        (docStoreC, d.id)) ∧
    hashUnique (applyIngests (fun s => s)
      [IngestOp.books 42 "T1" "p1" "x" "pdf",
       IngestOp.web 43 "u" "T2" "y" none] docStoreC) :=
  ⟨by decide,
   (C6_dedup_by_content_hash (fun s => s)).1 docStoreC 42 "T1" "p1" "x" "pdf"
     (by decide),
   (C6_dedup_by_content_hash (fun s => s)).2.2
     [IngestOp.books 42 "T1" "p1" "x" "pdf", IngestOp.web 43 "u" "T2" "y" none]
     docStoreC (by decide)⟩

/-! ## Retriever — `adyai/app.py`, `vector_search`

The pgvector operators in the SQL query are
`<->` (Euclidean distance, used in `ORDER BY`) and `<=>` (cosine distance,
used in the reported score).  Vectors are modelled over `ℚ`.  Ordering by
Euclidean distance is modelled by ordering on the squared Euclidean
distance, which induces the same order since squaring is monotone on
non-negative reals.  The cosine distance `1 − u·v/(‖u‖‖v‖)` is modelled in
its specialisation to unit-normalised vectors (`‖u‖ = ‖v‖ = 1`), which is
what the pipeline stores (`model.encode(..., normalize_embeddings=True)`)
and queries with. -/

def dotQ (u v : List ℚ) : ℚ := (List.zipWith (fun a b => a * b) u v).sum

def normSq (u : List ℚ) : ℚ := dotQ u u

def euclidDistSq (u v : List ℚ) : ℚ :=
  (List.zipWith (fun a b => (a - b) ^ 2) u v).sum

/-- Helper for the lower cosine bound: the squared norm of `u + v`. -/
def plusSq (u v : List ℚ) : ℚ :=
  (List.zipWith (fun a b => (a + b) ^ 2) u v).sum

/-- pgvector's `<=>` cosine distance, specialised to unit vectors:
`1 − u·v/(‖u‖‖v‖) = 1 − u·v` when `‖u‖ = ‖v‖ = 1`. -/
def cosineDistUnit (u v : List ℚ) : ℚ := 1 - dotQ u v

/-- A row of the joined view `zen_chunks c JOIN zen_docs d ON d.id=c.doc_id`
that `vector_search` queries (each chunk with its parent document's
metadata; the ownership invariant makes the join total). -/
structure SRow where
  content : String
  title : String
  source_type : String
  source_url : Option String
  embedding : List ℚ
  deriving DecidableEq, Repr

/-- A result row of `vector_search`: the selected columns including
`1 - (c.embedding <=> %s::vector) AS score`. -/
structure RRow where
  content : String
  title : String
  source_type : String
  source_url : Option String
  score : ℚ
  deriving DecidableEq, Repr

/-- The `SELECT` column list applied to one joined row. -/
def toResultRow (q : List ℚ) (r : SRow) : RRow :=
  { content := r.content, title := r.title, source_type := r.source_type,
    source_url := r.source_url, score := 1 - cosineDistUnit r.embedding q }

/-- `vector_search` from `adyai/app.py`: order all chunk rows by
`c.embedding <-> q` (Euclidean), report `1 - (c.embedding <=> q)` as the
score, and `LIMIT k`. -/
def vector_search (store : List SRow) (q : List ℚ) (k : Nat) : List RRow :=
  ((store.insertionSort fun a b =>
      euclidDistSq a.embedding q ≤ euclidDistSq b.embedding q).map
    (toResultRow q)).take k

/-- The reference pure-cosine-ordered search from the specification's
words: order by ascending cosine distance (descending cosine similarity)
instead of Euclidean distance. -/
def cosine_search (store : List SRow) (q : List ℚ) (k : Nat) : List RRow :=
  ((store.insertionSort fun a b =>
      cosineDistUnit a.embedding q ≤ cosineDistUnit b.embedding q).map
    (toResultRow q)).take k

theorem dotQ_cons (a b : ℚ) (as bs : List ℚ) :
    dotQ (a :: as) (b :: bs) = a * b + dotQ as bs := by
  simp [dotQ]

theorem euclidDistSq_cons (a b : ℚ) (as bs : List ℚ) :
    euclidDistSq (a :: as) (b :: bs) = (a - b) ^ 2 + euclidDistSq as bs := by
  simp [euclidDistSq]

theorem plusSq_cons (a b : ℚ) (as bs : List ℚ) :
    plusSq (a :: as) (b :: bs) = (a + b) ^ 2 + plusSq as bs := by
  simp [plusSq]

theorem euclidDistSq_eq (u : List ℚ) :
    ∀ v, u.length = v.length →
      euclidDistSq u v = normSq u + normSq v - 2 * dotQ u v := by
  induction u with
  | nil =>
      intro v h
      cases v with
      | nil => simp [euclidDistSq, normSq, dotQ]
      | cons b bs => simp at h
  | cons a as ih =>
      intro v h
      cases v with
      | nil => simp at h
      | cons b bs =>
          have h2 : as.length = bs.length := by simpa using h
          show euclidDistSq (a :: as) (b :: bs) =
            normSq (a :: as) + normSq (b :: bs) - 2 * dotQ (a :: as) (b :: bs)
          rw [euclidDistSq_cons]
          rw [show normSq (a :: as) = a * a + normSq as from dotQ_cons a a as as]
          rw [show normSq (b :: bs) = b * b + normSq bs from dotQ_cons b b bs bs]
          rw [dotQ_cons, ih bs h2]
          ring

theorem plusSq_eq (u : List ℚ) :
    ∀ v, u.length = v.length →
      plusSq u v = normSq u + normSq v + 2 * dotQ u v := by
  induction u with
  | nil =>
      intro v h
      cases v with
      | nil => simp [plusSq, normSq, dotQ]
      | cons b bs => simp at h
  | cons a as ih =>
      intro v h
      cases v with
      | nil => simp at h
      | cons b bs =>
          have h2 : as.length = bs.length := by simpa using h
          rw [plusSq_cons]
          rw [show normSq (a :: as) = a * a + normSq as from dotQ_cons a a as as]
          rw [show normSq (b :: bs) = b * b + normSq bs from dotQ_cons b b bs bs]
          rw [dotQ_cons, ih bs h2]
          ring

theorem euclidDistSq_nonneg (u : List ℚ) : ∀ v, 0 ≤ euclidDistSq u v := by
  induction u with
  | nil => intro v; cases v <;> simp [euclidDistSq]
  | cons a as ih =>
      intro v
      cases v with
      | nil => simp [euclidDistSq]
      | cons b bs =>
          rw [euclidDistSq_cons]
          have h1 : (0 : ℚ) ≤ (a - b) ^ 2 := sq_nonneg _
          have h2 := ih bs
          linarith

theorem plusSq_nonneg (u : List ℚ) : ∀ v, 0 ≤ plusSq u v := by
  induction u with
  | nil => intro v; cases v <;> simp [plusSq]
  | cons a as ih =>
      intro v
      cases v with
      | nil => simp [plusSq]
      | cons b bs =>
          rw [plusSq_cons]
          have h1 : (0 : ℚ) ≤ (a + b) ^ 2 := sq_nonneg _
          have h2 := ih bs
          linarith

theorem dotQ_le_one {u v : List ℚ} (hu : normSq u = 1) (hv : normSq v = 1)
    (h : u.length = v.length) : dotQ u v ≤ 1 := by
  have h1 := euclidDistSq_nonneg u v
  rw [euclidDistSq_eq u v h, hu, hv] at h1
  linarith

theorem neg_one_le_dotQ {u v : List ℚ} (hu : normSq u = 1) (hv : normSq v = 1)
    (h : u.length = v.length) : -1 ≤ dotQ u v := by
  have h1 := plusSq_nonneg u v
  rw [plusSq_eq u v h, hu, hv] at h1
  linarith

theorem score_eq_dot (u q : List ℚ) : 1 - cosineDistUnit u q = dotQ u q := by
  unfold cosineDistUnit
  ring

theorem euclid_le_iff_dot_ge {u v q : List ℚ} (hu : normSq u = 1)
    (hv : normSq v = 1) (hq : normSq q = 1) (h1 : u.length = q.length)
    (h2 : v.length = q.length) :
    euclidDistSq u q ≤ euclidDistSq v q ↔ dotQ v q ≤ dotQ u q := by
  rw [euclidDistSq_eq u q h1, euclidDistSq_eq v q h2, hu, hv, hq]
  constructor <;> intro <;> linarith

/-- C4: `vector_search` returns exactly `min k n` rows on a corpus of `n`
chunks (so exactly `k` when `k ≤ n`, and one row per stored chunk when
`k > n`); it returns the empty sequence on an empty chunk store; and — for
the unit-normalised vectors the pipeline stores and queries with — the
returned rows are sorted by non-increasing score. -/
theorem C4_search_topk (store : List SRow) (q : List ℚ) (k : Nat) :
    (vector_search store q k).length = min k store.length ∧
    (store = [] → vector_search store q k = []) ∧
    ((∀ r ∈ store, normSq r.embedding = 1 ∧ r.embedding.length = q.length) →
      normSq q = 1 →
      List.Sorted (fun a b : RRow => b.score ≤ a.score) (vector_search store q k)) := by
  refine ⟨?_, ?_, ?_⟩
  · simp [vector_search]
  · intro h
    subst h
    simp [vector_search]
  · intro hstore hq
    haveI : IsTotal SRow
        (fun a b => euclidDistSq a.embedding q ≤ euclidDistSq b.embedding q) :=
      ⟨fun a b => le_total _ _⟩
    haveI : IsTrans SRow
        (fun a b => euclidDistSq a.embedding q ≤ euclidDistSq b.embedding q) :=
      ⟨fun a b c hab hbc => le_trans hab hbc⟩
    have hsor : (store.insertionSort fun a b =>
        euclidDistSq a.embedding q ≤ euclidDistSq b.embedding q).Pairwise
          (fun a b => euclidDistSq a.embedding q ≤ euclidDistSq b.embedding q) :=
      List.sorted_insertionSort _ store
    have hsc : (store.insertionSort fun a b =>
        euclidDistSq a.embedding q ≤ euclidDistSq b.embedding q).Pairwise
          (fun a b => (toResultRow q b).score ≤ (toResultRow q a).score) := by
      refine List.Pairwise.imp_of_mem ?_ hsor
      intro a b ha hb hab
      have ha2 : a ∈ store := (List.mem_insertionSort _).mp ha
      have hb2 : b ∈ store := (List.mem_insertionSort _).mp hb
      obtain ⟨hna, hla⟩ := hstore a ha2
      obtain ⟨hnb, hlb⟩ := hstore b hb2
      show (toResultRow q b).score ≤ (toResultRow q a).score
      have hsa : (toResultRow q a).score = dotQ a.embedding q := score_eq_dot _ q
      have hsb : (toResultRow q b).score = dotQ b.embedding q := score_eq_dot _ q
      rw [hsa, hsb]
      exact (euclid_le_iff_dot_ge hna hnb hq hla hlb).mp hab
    exact List.Pairwise.sublist (List.take_sublist _ _) (List.pairwise_map.mpr hsc)

/-- Two-row corpus for the retrieval witnesses. -/
def storeD : List SRow :=
  [{ content := "c0", title := "t0", source_type := "web", source_url := none,
     embedding := [1, 0] },
   { content := "c1", title := "t1", source_type := "pdf",
     source_url := some "u", embedding := [0, 1] }]

/-- Witness for C4 at a concrete corpus, query and `k`. -/
theorem C4_search_topk_witness :
    (vector_search storeD [1, 0] 5).length = min 5 storeD.length ∧
    vector_search ([] : List SRow) [1, 0] 5 = [] ∧
    ((∀ r ∈ storeD, normSq r.embedding = 1 ∧
        r.embedding.length = ([1, 0] : List ℚ).length) ∧
      List.Sorted (fun a b : RRow => b.score ≤ a.score)
        (vector_search storeD [1, 0] 5)) :=
  ⟨(C4_search_topk storeD [1, 0] 5).1,
   (C4_search_topk ([] : List SRow) [1, 0] 5).2.1 rfl,
   by simp [storeD, normSq, dotQ],
   (C4_search_topk storeD [1, 0] 5).2.2 (by simp [storeD, normSq, dotQ])
     (by simp [normSq, dotQ])⟩

/-- C5 (as holding in the code, after correction): every score reported by
`vector_search` is computed as `1 −` the cosine distance between the chunk
vector and the query vector; for the unit vectors the pipeline stores, the
score lies in `[-1, 1]` (not `[0, 1]`: anti-parallel vectors score `−1`),
and an identical chunk vector attains the maximal score `1`. -/
theorem C5_score_is_one_minus_cosine (store : List SRow) (q : List ℚ)
    (k : Nat) :
    ∀ r ∈ vector_search store q k, ∃ c ∈ store,
      r.score = 1 - cosineDistUnit c.embedding q ∧
      (normSq c.embedding = 1 → normSq q = 1 → c.embedding.length = q.length →
        -1 ≤ r.score ∧ r.score ≤ 1) ∧
      (c.embedding = q → normSq q = 1 → r.score = 1) := by
  intro r hr
  have hr2 := List.mem_of_mem_take hr
  obtain ⟨c, hc, hcr⟩ := List.mem_map.mp hr2
  have hcs : c ∈ store := (List.mem_insertionSort _).mp hc
  have hscore : r.score = 1 - cosineDistUnit c.embedding q := by
    rw [← hcr]
    rfl
  refine ⟨c, hcs, hscore, ?_, ?_⟩
  · intro hn hq hl
    have hs : r.score = dotQ c.embedding q := by
      rw [hscore, score_eq_dot]
    rw [hs]
    exact ⟨neg_one_le_dotQ hn hq hl, dotQ_le_one hn hq hl⟩
  · intro hqe hq
    rw [hscore, score_eq_dot, hqe]
    exact hq

/-- One-chunk corpus whose stored vector is anti-parallel to the query
used in the C5 counterexample. -/
def storeNeg : List SRow :=
  [{ content := "c", title := "t", source_type := "web", source_url := none,
     embedding := [-1, 0] }]

/-- Counterexample to the `[0, 1]` score range of C5: both vectors are
unit-normalised, yet the search reports the score `−1 < 0`. -/
theorem C5_counterexample :
    (vector_search storeNeg [1, 0] 1).map RRow.score = [-1] ∧
    normSq ([-1, 0] : List ℚ) = 1 ∧ normSq ([1, 0] : List ℚ) = 1 ∧
    ¬ (0 : ℚ) ≤ -1 := by
  refine ⟨?_, by simp [normSq, dotQ], by simp [normSq, dotQ], by norm_num⟩
  simp [vector_search, storeNeg, List.insertionSort, toResultRow,
    cosineDistUnit, dotQ]

/-- The single row returned by `vector_search storeNeg [1, 0] 1`. -/
def negRow : RRow :=
  { content := "c", title := "t", source_type := "web", source_url := none,
    score := -1 }

/-- Witness for (corrected) C5 at a concrete corpus, query and result
row. -/
theorem C5_score_is_one_minus_cosine_witness :
    negRow ∈ vector_search storeNeg [1, 0] 1 ∧
    ∃ c ∈ storeNeg,
      negRow.score = 1 - cosineDistUnit c.embedding [1, 0] ∧
      (normSq c.embedding = 1 → normSq ([1, 0] : List ℚ) = 1 →
        c.embedding.length = ([1, 0] : List ℚ).length →
        -1 ≤ negRow.score ∧ negRow.score ≤ 1) ∧
      (c.embedding = [1, 0] → normSq ([1, 0] : List ℚ) = 1 →
        negRow.score = 1) := by
  have hmem : negRow ∈ vector_search storeNeg [1, 0] 1 := by
    simp [vector_search, storeNeg, List.insertionSort, toResultRow,
      cosineDistUnit, dotQ, negRow]
  exact ⟨hmem, C5_score_is_one_minus_cosine storeNeg [1, 0] 1 negRow hmem⟩

theorem orderedInsert_congr {α : Type} (r s : α → α → Prop) [DecidableRel r]
    [DecidableRel s] (a : α) :
    ∀ L : List α, (∀ b ∈ L, (r a b ↔ s a b)) →
      L.orderedInsert r a = L.orderedInsert s a := by
  intro L
  induction L with
  | nil => intro _; rfl
  | cons b t ih =>
      intro h
      show List.orderedInsert r a (b :: t) = List.orderedInsert s a (b :: t)
      simp only [List.orderedInsert]
      by_cases hr : r a b
      · rw [if_pos hr, if_pos ((h b (List.mem_cons_self b t)).mp hr)]
      · rw [if_neg hr,
          if_neg (fun hs2 => hr ((h b (List.mem_cons_self b t)).mpr hs2)),
          ih (fun c hc => h c (List.mem_cons_of_mem b hc))]

theorem insertionSort_congr {α : Type} (r s : α → α → Prop) [DecidableRel r]
    [DecidableRel s] :
    ∀ l : List α, (∀ a ∈ l, ∀ b ∈ l, (r a b ↔ s a b)) →
      l.insertionSort r = l.insertionSort s := by
  intro l
  induction l with
  | nil => intro _; rfl
  | cons x t ih =>
      intro h
      show List.orderedInsert r x (t.insertionSort r) =
        List.orderedInsert s x (t.insertionSort s)
      rw [ih (fun a ha b hb =>
        h a (List.mem_cons_of_mem _ ha) b (List.mem_cons_of_mem _ hb))]
      apply orderedInsert_congr
      intro b hb
      have hb2 : b ∈ t := (List.mem_insertionSort _).mp hb
      exact h x (List.mem_cons_self x t) b (List.mem_cons_of_mem x hb2)

/-- C9: over unit-normalised vectors, ordering by ascending Euclidean
distance to the query coincides with ordering by descending cosine
similarity (`1 −` cosine distance), so `vector_search` — which orders by
the Euclidean operator and scores by the cosine operator — returns the
same rows in the same order as the pure cosine-ordered search. -/
theorem C9_euclid_cosine_same_ranking (q : List ℚ) (hq : normSq q = 1) :
    (∀ u v : List ℚ, u.length = q.length → v.length = q.length →
      normSq u = 1 → normSq v = 1 →
      (euclidDistSq u q ≤ euclidDistSq v q ↔
        1 - cosineDistUnit v q ≤ 1 - cosineDistUnit u q)) ∧
    (∀ (store : List SRow) (k : Nat),
      (∀ r ∈ store, normSq r.embedding = 1 ∧ r.embedding.length = q.length) →
      vector_search store q k = cosine_search store q k) := by
  constructor
  · intro u v hlu hlv hu hv
    rw [score_eq_dot, score_eq_dot]
    exact euclid_le_iff_dot_ge hu hv hq hlu hlv
  · intro store k hstore
    unfold vector_search cosine_search
    have hsort : (store.insertionSort fun a b =>
        euclidDistSq a.embedding q ≤ euclidDistSq b.embedding q) =
        (store.insertionSort fun a b =>
          cosineDistUnit a.embedding q ≤ cosineDistUnit b.embedding q) := by
      apply insertionSort_congr
      intro a ha b hb
      obtain ⟨hna, hla⟩ := hstore a ha
      obtain ⟨hnb, hlb⟩ := hstore b hb
      have h1 := euclid_le_iff_dot_ge hna hnb hq hla hlb
      unfold cosineDistUnit
      constructor
      · intro h2
        have := h1.mp h2
        linarith
      · intro h2
        apply h1.mpr
        linarith
    rw [hsort]

/-- Witness for C9 at a concrete query, vector pair and corpus. -/
theorem C9_euclid_cosine_same_ranking_witness :
    normSq ([1, 0] : List ℚ) = 1 ∧
    (euclidDistSq [0, 1] [1, 0] ≤ euclidDistSq [1, 0] [1, 0] ↔
      1 - cosineDistUnit [1, 0] [1, 0] ≤ 1 - cosineDistUnit [0, 1] [1, 0]) ∧
    vector_search storeD [1, 0] 1 = cosine_search storeD [1, 0] 1 :=
  ⟨by simp [normSq, dotQ],
   (C9_euclid_cosine_same_ranking [1, 0] (by simp [normSq, dotQ])).1 [0, 1] [1, 0]
     (by simp) (by simp) (by simp [normSq, dotQ]) (by simp [normSq, dotQ]),
   (C9_euclid_cosine_same_ranking [1, 0] (by simp [normSq, dotQ])).2 storeD 1
     (by simp [storeD, normSq, dotQ])⟩

/-! ## Chat model fallback — `adyai/app.py`, `chat` -/

/-- The failure classes the fallback loop distinguishes:
`anthropic.OverloadedError`, `anthropic.NotFoundError`, and the catch-all
`except Exception` branch. -/
inductive ApiError where
  | overloaded
  | notFound
  | other (msg : String)
  deriving DecidableEq, Repr

/-- The model preference list of the chat endpoint. -/
def models : List String := ["claude-sonnet-4-20250514", "claude-3-haiku-20240307"]

/-- The `for model_name in models:` loop of `chat`: try each model in
order; every exception class — overloaded, not-found, or any other
(`except Exception`) — stores the error as `last_error` and `continue`s
with the next model; if no model succeeded, `raise Exception("All models
failed. Last error: …")`, modelled as `.error` carrying the recorded last
error. -/
def tryModels {α : Type} (call : String → Except ApiError α) :
    List String → Option ApiError → Except (Option ApiError) α
  | [], last => .error last
  | m :: ms, _last =>
    match call m with
    | .ok v => .ok v
    | .error e => tryModels call ms (some e)

def chatModelCall {α : Type} (call : String → Except ApiError α) :
    Except (Option ApiError) α :=
  tryModels call models none

/-- C3 (as holding in the code, after correction): the secondary model is
attempted after ANY failure class of the primary — overloaded, not found,
or any other exception — not only after the first two; the first success
is returned; and if both models fail, the request fails with the
aggregated error carrying the last failure. -/
theorem C3_fallback_on_any_failure {α : Type}
    (call : String → Except ApiError α) :
    (∀ v, call "claude-sonnet-4-20250514" = .ok v →
      chatModelCall call = .ok v) ∧
    (∀ e v, call "claude-sonnet-4-20250514" = .error e →
      call "claude-3-haiku-20240307" = .ok v →
      chatModelCall call = .ok v) ∧
    (∀ e1 e2, call "claude-sonnet-4-20250514" = .error e1 →
      call "claude-3-haiku-20240307" = .error e2 →
      chatModelCall call = .error (some e2)) := by
  refine ⟨?_, ?_, ?_⟩
  · intro v h
    simp [chatModelCall, models, tryModels, h]
  · intro e v h1 h2
    simp [chatModelCall, models, tryModels, h1, h2]
  · intro e1 e2 h1 h2
    simp [chatModelCall, models, tryModels, h1, h2]

/-- Concrete call behaviour for the C3 counterexample: the primary model
fails with a failure class that is neither "overloaded" nor "not found",
and the secondary model would succeed. -/
def cexCall : String → Except ApiError Nat := fun m =>
  if m == "claude-sonnet-4-20250514" then .error (.other "boom") else .ok 42

/-- Counterexample to C3 as stated: after the primary model fails with an
"other" failure class, the code still tries the secondary model and the
request succeeds — the failure is not surfaced. -/
theorem C3_counterexample :
    chatModelCall cexCall = .ok 42 ∧
    chatModelCall cexCall ≠ .error (some (.other "boom")) :=
  ⟨by decide, by decide⟩

/-- Call behaviour where every model fails; the last error is recorded. -/
def failCall : String → Except ApiError Nat := fun m =>
  if m == "claude-sonnet-4-20250514" then .error .overloaded
  else .error (.other "x")

/-- Call behaviour where the primary model succeeds immediately. -/
def okCall : String → Except ApiError Nat := fun _ => .ok 7

/-- Witness for (corrected) C3 at concrete call behaviours. -/
theorem C3_fallback_on_any_failure_witness :
    (okCall "claude-sonnet-4-20250514" = .ok 7 ∧
      chatModelCall okCall = .ok 7) ∧
    (cexCall "claude-sonnet-4-20250514" = .error (.other "boom") ∧
      cexCall "claude-3-haiku-20240307" = .ok 42 ∧
      chatModelCall cexCall = .ok 42) ∧
    (failCall "claude-sonnet-4-20250514" = .error .overloaded ∧
      failCall "claude-3-haiku-20240307" = .error (.other "x") ∧
      chatModelCall failCall = .error (some (.other "x"))) :=
  ⟨⟨by decide, (C3_fallback_on_any_failure okCall).1 7 (by decide)⟩,
   ⟨by decide, by decide,
    (C3_fallback_on_any_failure cexCall).2.1 (.other "boom") 42 (by decide)
      (by decide)⟩,
   ⟨by decide, by decide,
    (C3_fallback_on_any_failure failCall).2.2 .overloaded (.other "x")
      (by decide) (by decide)⟩⟩
